import Mathlib

/-!
Verification of the stream-selection and download-orchestration core of the
pytubenow command-line front-end (src/pytubefix/cli.py).

The CLI file composes query primitives of the platform-client library
(filter, order_by, first, last, get_file_path, download) that are not part
of the provided sources; those primitives are modelled from the
specification and marked as such.  Everything else (the selection branches
of ffmpeg_process, download_by_resolution,
download_highest_resolution_progressive, _unique_name, _download,
display_progress_bar and the dispatch in main) is translated directly from
cli.py.

Python machine-level conventions used by the embedding:
* a fallible computation returns Except PyErr; dereferencing an attribute
  of None is PyErr.attributeError, division by zero is
  PyErr.zeroDivisionError;
* the filesystem is the set of existing paths, a List String; a transfer
  creates the resolved path;
* Python float arithmetic of display_progress_bar is modelled by exact
  rationals; round is round-half-to-even as in Python 3.
-/

namespace PytubeCli

/-- Python exceptions that the translated code can raise. -/
inductive PyErr where
  | attributeError : PyErr
  | zeroDivisionError : PyErr
deriving DecidableEq

/-- One downloadable media track, following the data model of the spec:
identifier (itag), container subtype, progressive capability flag,
nullable resolution (numeric part of the resolution string, video only),
nullable average bitrate (audio only), total byte size, and the title of
the owning video (used by the default file name).  Resolution strings such
as 720p are represented by their numeric value. -/
structure Stream where
  itag : Nat
  subtype : String
  progressive : Bool
  resolution : Option Nat
  abr : Option Nat
  title : String
  filesize : Nat
deriving DecidableEq

/-- The resolution argument of ffmpeg_process: Python None, the string
best, or a concrete resolution string such as 720p (kept by its numeric
value). -/
inductive ResArg where
  | noArg : ResArg
  | best : ResArg
  | given : Nat → ResArg
deriving DecidableEq

/-- Decimal digit rendering, fuel-bounded so that it is structural and
kernel-reducible.  With fuel at least n this renders the decimal digits of
n (most significant first); it models the rendering of an integer inside a
Python f-string. -/
def decChars : Nat → Nat → List Char
  | 0, _ => []
  | fuel + 1, n => if n = 0 then [] else decChars fuel (n / 10) ++ [Nat.digitChar (n % 10)]

/-- Decimal rendering of a natural number, as a Python f-string renders an
int. -/
def natStr (n : Nat) : String :=
  if n = 0 then "0" else String.mk (decChars n n)

/-- Parse a digit list back to the number it denotes; left inverse of
decChars, used to prove injectivity of natStr. -/
def parseDec (l : List Char) : Nat :=
  l.foldl (fun acc c => acc * 10 + (c.toNat - 48)) 0

/-- os.path.join as used by cli.py (relative file names only). -/
def pathJoin (t n : String) : String := t ++ "/" ++ n

/-- Modelled from the spec: the composition .order_by(attr).last() of the
StreamCatalog collaborator, the only way cli.py uses order_by.  Streams
lacking the attribute are excluded from the ordering; the result is the
stream with the numerically greatest attribute value, ties broken by
catalog order with the last one winning; none when no stream carries the
attribute. -/
def orderByLast (key : Stream → Option Nat) : List Stream → Option Stream
  | [] => none
  | s :: rest =>
    match orderByLast key rest with
    | none => match key s with
      | none => none
      | some _ => some s
    | some t =>
      match key s, key t with
      | some v, some w => if w < v then some s else some t
      | _, _ => some t

/-- cli.py lines 131-139: the video-stream decision of ffmpeg_process.
For None or best, take the highest-resolution non-progressive stream and
the highest-resolution non-progressive mp4 stream; dereferencing
.resolution of either query result raises AttributeError when that result
is None.  For an explicit resolution, the first non-progressive stream of
that resolution. -/
def videoStreamSel (cat : List Stream) (arg : ResArg) : Except PyErr (Option Stream) :=
  match arg with
  | .noArg | .best =>
    let highest_quality_stream := orderByLast (fun s => s.resolution)
      (cat.filter (fun s => !s.progressive))
    let mp4_stream := orderByLast (fun s => s.resolution)
      (cat.filter (fun s => !s.progressive && s.subtype == "mp4"))
    match highest_quality_stream, mp4_stream with
    | some hq, some m4 =>
      .ok (some (if hq.resolution = m4.resolution then m4 else hq))
    | _, _ => .error .attributeError
  | .given _r =>
    .ok ((cat.filter (fun s => !s.progressive && s.resolution == some _r)).head?)

/-- cli.py line 145: the audio stream of ffmpeg_process, the
non-progressive stream with the highest average bitrate. -/
def audioStreamSel (cat : List Stream) : Option Stream :=
  orderByLast (fun s => s.abr) (cat.filter (fun s => !s.progressive))

/-- Modelled from the spec: the default file name of a stream, the title
with the container subtype as extension. -/
def default_filename (s : Stream) : String := s.title ++ "." ++ s.subtype

/-- Modelled from the spec: Stream.get_file_path resolves the download
target to a concrete path, joining the target directory with the explicit
file name when one is given (used verbatim) and with the default file name
otherwise. -/
def get_file_path (s : Stream) (filename : Option String) (output_path : String) : String :=
  pathJoin output_path (match filename with
    | none => default_filename s
    | some f => f)

/-- State threaded through the orchestration: the set of existing paths,
the lines printed so far, and the number of stream transfers performed. -/
structure DState where
  disk : List String
  output : List String
  transfers : Nat
deriving DecidableEq

/-- The line printed first by _download: the file name and the size in
megabytes. -/
def sizeLine (s : Stream) (filename : Option String) : String :=
  (match filename with
    | some f => f
    | none => default_filename s) ++ " | " ++ natStr (s.filesize / 1048576) ++ " MB"

/-- cli.py lines 81-90 (_download): print the file name and size, then
skip with a message when the resolved path already exists, otherwise
transfer the stream, creating the resolved path. -/
def downloadStep (s : Stream) (target : String) (filename : Option String) (st : DState) : DState :=
  let file_path := get_file_path s filename target
  if file_path ∈ st.disk then
    { st with output := st.output ++ [sizeLine s filename, "Already downloaded at:\n" ++ file_path] }
  else
    { disk := file_path :: st.disk
      output := st.output ++ [sizeLine s filename]
      transfers := st.transfers + 1 }

/-- The candidate path tested by iteration counter of _unique_name:
os.path.join(target, base_mediaType_counter.subtype). -/
def uniqueCandidate (base subtype media_type target : String) (counter : Nat) : String :=
  pathJoin target (base ++ "_" ++ media_type ++ "_" ++ natStr counter ++ "." ++ subtype)

/-- The while-True search of _unique_name, fuel-bounded so that it is
structural; the fuel disk.length + 1 always suffices (proved below), so
the value agrees with the unbounded loop of the source. -/
def findFree (cand : Nat → String) (disk : List String) : Nat → Nat → Nat
  | c, 0 => c
  | c, fuel + 1 => if cand c ∈ disk then findFree cand disk (c + 1) fuel else c

/-- cli.py lines 92-112 (_unique_name): the first counter whose candidate
path does not exist gives the returned base name (without extension). -/
def unique_name (base subtype media_type target : String) (disk : List String) : String :=
  base ++ "_" ++ media_type ++ "_" ++
    natStr (findFree (uniqueCandidate base subtype media_type target) disk 0 (disk.length + 1))

/-- Rendering of the resolution argument inside the printed messages of
ffmpeg_process. -/
def resArgStr : ResArg → String
  | .noArg => "None"
  | .best => "best"
  | .given r => natStr r ++ "p"

/-- cli.py lines 114-164 (ffmpeg_process), for a fixed catalog and title:
select the video stream (possibly raising), print and return when none
matches, otherwise select the audio stream (dereferencing it raises when
it is None), allocate unique names, short-circuit when both resolved paths
exist, otherwise download video then audio and run the external muxer,
which creates the target/title.mp4 output file. -/
def ffmpeg_process (cat : List Stream) (title : String) (arg : ResArg) (target : String)
    (st : DState) : Except PyErr DState :=
  match videoStreamSel cat arg with
  | .error e => .error e
  | .ok none =>
    .ok { st with output := st.output ++ ["No streams found for resolution " ++ resArgStr arg] }
  | .ok (some video_stream) =>
    match audioStreamSel cat with
    | none => .error .attributeError
    | some audio_stream =>
      let video_file_name := unique_name title "mp4" "video" target st.disk
      let audio_file_name := unique_name title "mp4" "audio" target st.disk
      let video_path := get_file_path video_stream (some video_file_name) target
      let audio_path := get_file_path audio_stream (some audio_file_name) target
      if video_path ∈ st.disk ∧ audio_path ∈ st.disk then
        .ok { st with output := st.output ++ ["Already downloaded both video and audio."] }
      else
        let st1 := downloadStep video_stream target (some video_file_name) st
        let st2 := downloadStep audio_stream target (some audio_file_name) st1
        .ok { st2 with disk := (target ++ "/" ++ title ++ ".mp4") :: st2.disk }

/-- cli.py line 180: the stream picked by download_by_resolution, the
first stream of the given resolution with no constraint on
progressiveness. -/
def dbrSel (cat : List Stream) (r : Nat) : Option Stream :=
  (cat.filter (fun s => s.resolution == some r)).head?

/-- cli.py lines 166-184 (download_by_resolution). -/
def download_by_resolution (cat : List Stream) (r : Nat) (target : String) (st : DState) : DState :=
  let st := { st with output := st.output ++ ["Downloading " ++ natStr r ++ "p..."] }
  match dbrSel cat r with
  | none => { st with output := st.output ++ ["No stream found for resolution " ++ natStr r ++ "p"] }
  | some s => downloadStep s target none st

/-- cli.py line 200: the stream picked by
download_highest_resolution_progressive. -/
def bestProgressiveSel (cat : List Stream) : Option Stream :=
  orderByLast (fun s => s.resolution) (cat.filter (fun s => s.progressive))

/-- cli.py lines 186-204 (download_highest_resolution_progressive). -/
def download_highest_resolution_progressive (cat : List Stream) (target : String)
    (st : DState) : DState :=
  let st := { st with output := st.output ++ ["Downloading highest resolution progressive stream..."] }
  match bestProgressiveSel cat with
  | none => { st with output := st.output ++ ["No progressive stream found."] }
  | some s => downloadStep s target none st

/-- Python int() on a rational: truncation toward zero. -/
def pyInt (q : ℚ) : ℤ := if q < 0 then -⌊-q⌋ else ⌊q⌋

/-- Python round() to the nearest integer, halves to the even neighbor. -/
def pyRound (q : ℚ) : ℤ :=
  if q - ⌊q⌋ = 1 / 2 then (if 2 ∣ ⌊q⌋ then ⌊q⌋ else ⌊q⌋ + 1) else round q

/-- Python round(x, 1): round to one decimal place. -/
def pyRoundTo1 (q : ℚ) : ℚ := (pyRound (10 * q) : ℚ) / 10

/-- Rendering of a nonnegative one-decimal value as Python prints the
float produced by round(x, 1). -/
def fmtOneDecimal (q : ℚ) : String :=
  let k := (⌊10 * q⌋).toNat
  natStr (k / 10) ++ "." ++ natStr (k % 10)

/-- cli.py lines 47-74 (display_progress_bar), with the terminal column
count passed explicitly.  Division by a zero file size raises
ZeroDivisionError; otherwise the function renders the filled bar, the
padding, and the percentage to one decimal place on a line ending with a
carriage return and no newline. -/
def display_progress_bar (bytes_received filesize : Nat) (ch : Char) (scale : ℚ)
    (columns : Nat) : Except PyErr String :=
  if filesize = 0 then .error .zeroDivisionError
  else
    let max_width : ℤ := pyInt ((columns : ℚ) * scale)
    let filled : ℤ := pyRound ((max_width : ℚ) * (bytes_received : ℚ) / (filesize : ℚ))
    let remaining : ℤ := max_width - filled
    let progress_bar := String.mk
      (List.replicate filled.toNat ch ++ List.replicate remaining.toNat ' ')
    let percent : ℚ := pyRoundTo1 (100 * (bytes_received : ℚ) / (filesize : ℚ))
    .ok (" ↳ |" ++ progress_bar ++ "| " ++ fmtOneDecimal percent ++ "%\r")

/-- The command-line arguments relevant to the dispatch in main. -/
structure Args where
  url : Option String
  playlist : Option String
  audio : Bool

/-- The observable actions main can take: printing a line or invoking one
of the download routines.  download_playlist_video (cli.py lines 283-287)
gets its own constructor so that its absence from every trace of main is a
statable fact. -/
inductive Act where
  | printed : String → Act
  | urlAudioDownload : String → Act
  | urlVideoDownload : String → Act
  | playlistAudioDownload : String → Act
  | playlistVideoDownload : String → Act
deriving DecidableEq

/-- cli.py lines 320-325: the URL branch of main. -/
def urlBranch (args : Args) : List Act :=
  match args.url with
  | none => []
  | some u =>
    (if args.audio then [Act.urlAudioDownload u] else [Act.urlVideoDownload u]) ++
      [Act.printed "URL processed successfully!\n"]

/-- cli.py lines 327-333: the playlist branch of main.  Without the audio
flag the branch only prints; no download routine is dispatched. -/
def playlistBranch (args : Args) : List Act :=
  match args.playlist with
  | none => []
  | some p =>
    (if args.audio then [Act.playlistAudioDownload p]
      else [Act.printed ("Downloading playlist: " ++ p)]) ++
      [Act.printed "Playlist processed successfully!\n"]

/-- cli.py lines 296-333 (main): the trace of actions of one invocation. -/
def mainActs (args : Args) : List Act := urlBranch args ++ playlistBranch args

/-- Filesystem semantics of one action, parametric in the effect dl of a
download routine: a printed line leaves the filesystem unchanged, every
download routine may change it. -/
def actDisk (dl : String → List String → List String) : Act → List String → List String
  | .printed _, disk => disk
  | .urlAudioDownload u, disk => dl u disk
  | .urlVideoDownload u, disk => dl u disk
  | .playlistAudioDownload u, disk => dl u disk
  | .playlistVideoDownload u, disk => dl u disk

/-- Filesystem state after a trace of actions. -/
def runDisk (dl : String → List String → List String) (acts : List Act)
    (disk : List String) : List String :=
  acts.foldl (fun d a => actDisk dl a d) disk

/-- One allocate-then-create step: ask _unique_name for a fresh base name,
then create the corresponding file (candidate path with extension) in the
directory. -/
def allocStep (base subtype media_type target : String) (disk : List String) :
    String × List String :=
  let name := unique_name base subtype media_type target disk
  (name, pathJoin target (name ++ "." ++ subtype) :: disk)

/-- n allocate-then-create steps against an initially empty directory,
returning the allocated names in order together with the final directory
contents. -/
def allocRun (base subtype media_type target : String) : Nat → List String × List String
  | 0 => ([], [])
  | n + 1 =>
    let p := allocRun base subtype media_type target n
    let q := allocStep base subtype media_type target p.2
    (p.1 ++ [q.1], q.2)

/-! Concrete streams and catalogs used by witnesses and counterexamples. -/

/-- Progressive 360p stream of the spec scenario. -/
def s18 : Stream := ⟨18, "mp4", true, some 360, none, "t", 0⟩

/-- Progressive 720p stream of the spec scenario. -/
def s22 : Stream := ⟨22, "mp4", true, some 720, none, "t", 0⟩

/-- The spec scenario catalog: two progressive streams, no adaptive
streams at all. -/
def cat1822 : List Stream := [s18, s22]

/-- A catalog whose only non-progressive stream is a webm video: no
non-progressive mp4 stream exists. -/
def catWebmOnly : List Stream := [⟨100, "webm", false, some 720, none, "t2", 0⟩]

/-- A progressive 720p stream listed before an adaptive 720p stream. -/
def sProg720 : Stream := ⟨22, "mp4", true, some 720, none, "t3", 5⟩

/-- An adaptive (non-progressive) 720p stream. -/
def sAdapt720 : Stream := ⟨137, "mp4", false, some 720, none, "t3", 7⟩

/-- Mixed catalog: the progressive 720p stream precedes the adaptive
one. -/
def catMix : List Stream := [sProg720, sAdapt720]

/-- Adaptive catalog: an mp4 video track and a webm video track of equal
top resolution plus an audio track. -/
def catAdapt : List Stream :=
  [⟨137, "mp4", false, some 1080, none, "t", 2097152⟩,
   ⟨248, "webm", false, some 1080, none, "t", 0⟩,
   ⟨140, "mp4", false, none, some 128, "t", 1048576⟩]

/-! ### Helper lemmas: decimal rendering -/

theorem digitChar_val : ∀ d : Nat, d < 10 → (Nat.digitChar d).toNat - 48 = d := by decide

theorem parseDec_decChars : ∀ fuel n : Nat, n ≤ fuel → parseDec (decChars fuel n) = n := by
  intro fuel
  induction fuel with
  | zero =>
    intro n hn
    interval_cases n
    simp [decChars, parseDec]
  | succ f ih =>
    intro n hn
    by_cases h0 : n = 0
    · simp [decChars, parseDec, h0]
    · have hdiv : n / 10 ≤ f := by
        have h1 : n / 10 < n := Nat.div_lt_self (Nat.pos_of_ne_zero h0) (by norm_num)
        omega
      have hrec := ih (n / 10) hdiv
      simp only [decChars, h0, if_false, parseDec] at *
      rw [List.foldl_append, hrec]
      simp only [List.foldl]
      rw [digitChar_val (n % 10) (Nat.mod_lt n (by norm_num))]
      exact Nat.div_add_mod' n 10

theorem parseDec_natStr (n : Nat) : parseDec (natStr n).data = n := by
  by_cases h0 : n = 0
  · subst h0; decide
  · simp only [natStr, h0, if_false]
    exact parseDec_decChars n n le_rfl

theorem natStr_inj : Function.Injective natStr := by
  intro a b h
  have := congrArg (fun s : String => parseDec s.data) h
  simpa [parseDec_natStr] using this

/-! ### Helper lemmas: string append cancellation -/

theorem str_data_inj {a b : String} (h : a.data = b.data) : a = b := congrArg String.mk h

theorem strCancelLeft {p a b : String} (h : p ++ a = p ++ b) : a = b := by
  have hd := congrArg String.data h
  simp only [String.data_append] at hd
  exact str_data_inj (List.append_cancel_left hd)

theorem strCancelRight {a b s : String} (h : a ++ s = b ++ s) : a = b := by
  have hd := congrArg String.data h
  simp only [String.data_append] at hd
  exact str_data_inj (List.append_cancel_right hd)

theorem uniqueCandidate_inj (base subtype media_type target : String) :
    Function.Injective (uniqueCandidate base subtype media_type target) := by
  intro c c' h
  simp only [uniqueCandidate, pathJoin, String.append_assoc] at h
  have h1 := strCancelLeft (strCancelLeft (strCancelLeft (strCancelLeft
    (strCancelLeft (strCancelLeft h)))))
  have h2 : natStr c ++ ("." ++ subtype) = natStr c' ++ ("." ++ subtype) := by
    simpa [String.append_assoc] using h1
  exact natStr_inj (strCancelRight h2)

/-! ### Helper lemmas: the counter search of _unique_name -/

theorem findFree_correct (cand : Nat → String) (disk : List String) :
    ∀ fuel c, (∃ k, k < fuel ∧ cand (c + k) ∉ disk) →
      cand (findFree cand disk c fuel) ∉ disk ∧ c ≤ findFree cand disk c fuel ∧
        ∀ j, c ≤ j → j < findFree cand disk c fuel → cand j ∈ disk := by
  intro fuel
  induction fuel with
  | zero => intro c ⟨k, hk, _⟩; omega
  | succ f ih =>
    intro c ⟨k, hk, hfree⟩
    by_cases hmem : cand c ∈ disk
    · have hk0 : k ≠ 0 := by
        intro h; rw [h] at hfree; simp at hfree; exact hfree hmem
      obtain ⟨k', rfl⟩ : ∃ k', k = k' + 1 := ⟨k - 1, by omega⟩
      have hex : ∃ m, m < f ∧ cand (c + 1 + m) ∉ disk :=
        ⟨k', by omega, by have : c + 1 + k' = c + (k' + 1) := by omega
                          rw [this]; exact hfree⟩
      obtain ⟨hf, hle, hall⟩ := ih (c + 1) hex
      refine ⟨by simpa [findFree, hmem] using hf, ?_, ?_⟩
      · simp only [findFree, hmem, if_true]; omega
      · intro j hcj hjlt
        simp only [findFree, hmem, if_true] at hjlt
        rcases Nat.eq_or_lt_of_le hcj with rfl | hgt
        · exact hmem
        · exact hall j hgt hjlt
    · refine ⟨by simp [findFree, hmem], by simp [findFree, hmem], ?_⟩
      intro j hcj hjlt
      simp only [findFree, hmem, if_false] at hjlt
      omega

theorem exists_free_counter (cand : Nat → String) (hinj : Function.Injective cand)
    (disk : List String) : ∃ k, k < disk.length + 1 ∧ cand (0 + k) ∉ disk := by
  by_contra hall
  push_neg at hall
  have hsub : (Finset.range (disk.length + 1)).image cand ⊆ disk.toFinset := by
    intro x hx
    obtain ⟨k, hk, rfl⟩ := Finset.mem_image.mp hx
    rw [Finset.mem_range] at hk
    have := hall k hk
    rw [Nat.zero_add] at this
    exact List.mem_toFinset.mpr this
  have hcard := Finset.card_le_card hsub
  rw [Finset.card_image_of_injective _ hinj, Finset.card_range] at hcard
  have := disk.toFinset_card_le
  omega

/-- The counter chosen by _unique_name is the least whose candidate path
is absent from the directory. -/
theorem unique_name_counter_spec (base subtype media_type target : String)
    (disk : List String) :
    uniqueCandidate base subtype media_type target
        (findFree (uniqueCandidate base subtype media_type target) disk 0 (disk.length + 1))
      ∉ disk ∧
    ∀ k, k < findFree (uniqueCandidate base subtype media_type target) disk 0 (disk.length + 1) →
      uniqueCandidate base subtype media_type target k ∈ disk := by
  obtain ⟨hf, _, hall⟩ := findFree_correct (uniqueCandidate base subtype media_type target) disk
    (disk.length + 1) 0
    (exists_free_counter _ (uniqueCandidate_inj base subtype media_type target) disk)
  exact ⟨hf, fun k hk => hall k (Nat.zero_le k) hk⟩

/-- The least free counter is unique: any counter that is free while all
smaller ones are taken equals the one findFree returns. -/
theorem findFree_eq_of_least (base subtype media_type target : String) (disk : List String)
    (c : Nat) (hfree : uniqueCandidate base subtype media_type target c ∉ disk)
    (htaken : ∀ k, k < c → uniqueCandidate base subtype media_type target k ∈ disk) :
    findFree (uniqueCandidate base subtype media_type target) disk 0 (disk.length + 1) = c := by
  obtain ⟨hf, hall⟩ := unique_name_counter_spec base subtype media_type target disk
  set r := findFree (uniqueCandidate base subtype media_type target) disk 0 (disk.length + 1)
  rcases Nat.lt_trichotomy r c with h | h | h
  · exact absurd (htaken r h) hf
  · exact h
  · exact absurd (hall c h) hfree

/-! ### Helper lemmas: orderByLast -/

theorem orderByLast_none_forall (key : Stream → Option Nat) :
    ∀ l : List Stream, orderByLast key l = none → ∀ s ∈ l, key s = none := by
  intro l
  induction l with
  | nil => intro _ s hs; cases hs
  | cons a rest ih =>
    intro h s hs
    cases hr : orderByLast key rest with
    | none =>
      cases ha : key a with
      | none =>
        rcases List.mem_cons.mp hs with rfl | hsr
        · exact ha
        · exact ih hr s hsr
      | some v => simp [orderByLast, hr, ha] at h
    | some t =>
      cases ha : key a with
      | none => simp [orderByLast, hr, ha] at h
      | some v =>
        cases hkt : key t with
        | none => simp [orderByLast, hr, ha, hkt] at h
        | some w =>
          simp only [orderByLast, hr, ha, hkt] at h
          split at h <;> cases h

theorem orderByLast_isSome_of (key : Stream → Option Nat) :
    ∀ (l : List Stream) (s : Stream), s ∈ l → (key s).isSome →
      ∃ t, orderByLast key l = some t := by
  intro l
  induction l with
  | nil => intro s hs; cases hs
  | cons a rest ih =>
    intro s hs hsome
    cases hr : orderByLast key rest with
    | none =>
      cases ha : key a with
      | none =>
        rcases List.mem_cons.mp hs with rfl | hsr
        · rw [ha] at hsome; cases hsome
        · obtain ⟨t, ht⟩ := ih s hsr hsome
          rw [ht] at hr; cases hr
      | some v => exact ⟨a, by simp [orderByLast, hr, ha]⟩
    | some t =>
      cases ha : key a with
      | none => exact ⟨t, by simp [orderByLast, hr, ha]⟩
      | some v =>
        cases hkt : key t with
        | none => exact ⟨t, by simp [orderByLast, hr, ha, hkt]⟩
        | some w =>
          by_cases hlt : w < v
          · exact ⟨a, by simp [orderByLast, hr, ha, hkt, hlt]⟩
          · exact ⟨t, by simp [orderByLast, hr, ha, hkt, hlt]⟩

theorem orderByLast_some_spec (key : Stream → Option Nat) :
    ∀ (l : List Stream) (s : Stream), orderByLast key l = some s →
      ∃ v l1 l2, key s = some v ∧ l = l1 ++ s :: l2 ∧
        (∀ t ∈ l, ∀ w, key t = some w → w ≤ v) ∧
        (∀ t ∈ l2, ∀ w, key t = some w → w < v) := by
  intro l
  induction l with
  | nil => intro s h; cases h
  | cons a rest ih =>
    intro s h
    cases hr : orderByLast key rest with
    | none =>
      have hrestnone := orderByLast_none_forall key rest hr
      cases ha : key a with
      | none => simp [orderByLast, hr, ha] at h
      | some v =>
        simp only [orderByLast, hr, ha, Option.some.injEq] at h
        subst h
        refine ⟨v, [], rest, ha, rfl, ?_, ?_⟩
        · intro t ht w hw
          rcases List.mem_cons.mp ht with rfl | htr
          · rw [ha] at hw
            exact Nat.le_of_eq (Option.some.inj hw).symm
          · rw [hrestnone t htr] at hw; cases hw
        · intro t ht w hw
          rw [hrestnone t ht] at hw; cases hw
    | some t0 =>
      obtain ⟨w0, r1, r2, ht0key, hrsplit, hbound, hstrict⟩ := ih t0 hr
      cases ha : key a with
      | none =>
        simp only [orderByLast, hr, ha, Option.some.injEq] at h
        subst h
        refine ⟨w0, a :: r1, r2, ht0key, by rw [hrsplit]; rfl, ?_, hstrict⟩
        intro t ht w hw
        rcases List.mem_cons.mp ht with rfl | htr
        · rw [ha] at hw; cases hw
        · exact hbound t htr w hw
      | some v =>
        simp only [orderByLast, hr, ha, ht0key] at h
        by_cases hlt : w0 < v
        · rw [if_pos hlt, Option.some.injEq] at h
          subst h
          refine ⟨v, [], rest, ha, rfl, ?_, ?_⟩
          · intro t ht w hw
            rcases List.mem_cons.mp ht with rfl | htr
            · rw [ha] at hw
              exact Nat.le_of_eq (Option.some.inj hw).symm
            · have := hbound t htr w hw; omega
          · intro t ht w hw
            have := hbound t ht w hw; omega
        · rw [if_neg hlt, Option.some.injEq] at h
          subst h
          refine ⟨w0, a :: r1, r2, ht0key, by rw [hrsplit]; rfl, ?_, hstrict⟩
          intro t ht w hw
          rcases List.mem_cons.mp ht with rfl | htr
          · rw [ha] at hw
            have := Option.some.inj hw; omega
          · exact hbound t htr w hw

/-! ### Helper lemmas: head? of filter, filter splits -/

theorem head?_filter_some (p : Stream → Bool) :
    ∀ (l : List Stream) (s : Stream), (l.filter p).head? = some s →
      p s = true ∧ ∃ l1 l2, l = l1 ++ s :: l2 ∧ ∀ t ∈ l1, ¬ p t = true := by
  intro l
  induction l with
  | nil => intro s h; cases h
  | cons a rest ih =>
    intro s h
    by_cases pa : p a = true
    · rw [List.filter_cons_of_pos pa] at h
      obtain rfl : a = s := Option.some.inj h
      exact ⟨pa, [], rest, rfl, by intro t ht; cases ht⟩
    · rw [List.filter_cons_of_neg pa] at h
      obtain ⟨ps, l1, l2, rfl, hl1⟩ := ih s h
      refine ⟨ps, a :: l1, l2, rfl, ?_⟩
      intro t ht
      rcases List.mem_cons.mp ht with rfl | htr
      · exact pa
      · exact hl1 t htr

theorem filter_split (p : Stream → Bool) :
    ∀ (cat l1 l2 : List Stream) (s : Stream), cat.filter p = l1 ++ s :: l2 →
      ∃ c1 c2, cat = c1 ++ s :: c2 ∧ c2.filter p = l2 := by
  intro cat
  induction cat with
  | nil =>
    intro l1 l2 s h
    simp only [List.filter_nil] at h
    exact absurd h.symm (by simp)
  | cons a rest ih =>
    intro l1 l2 s h
    by_cases pa : p a = true
    · rw [List.filter_cons_of_pos pa] at h
      cases l1 with
      | nil =>
        simp only [List.nil_append] at h
        obtain ⟨rfl, hrest⟩ := List.cons.inj h
        exact ⟨[], rest, rfl, hrest⟩
      | cons b l1' =>
        simp only [List.cons_append] at h
        obtain ⟨rfl, hrest⟩ := List.cons.inj h
        obtain ⟨c1, c2, rfl, hc2⟩ := ih l1' l2 s hrest
        exact ⟨a :: c1, c2, rfl, hc2⟩
    · rw [List.filter_cons_of_neg pa] at h
      obtain ⟨c1, c2, rfl, hc2⟩ := ih l1 l2 s h
      exact ⟨a :: c1, c2, rfl, hc2⟩

/-! ### Helper lemmas: the allocate-then-create sequence -/

theorem name_to_candidate (base subtype media_type target : String) (c : Nat) :
    pathJoin target ((base ++ "_" ++ media_type ++ "_" ++ natStr c) ++ "." ++ subtype) =
      uniqueCandidate base subtype media_type target c := rfl

theorem allocName_inj (base subtype media_type : String) {i j : Nat}
    (h : base ++ "_" ++ media_type ++ "_" ++ natStr i =
         base ++ "_" ++ media_type ++ "_" ++ natStr j) : i = j := by
  apply uniqueCandidate_inj base subtype media_type ""
  rw [← name_to_candidate, ← name_to_candidate, h]

theorem allocRun_spec (base subtype media_type target : String) :
    ∀ n, (allocRun base subtype media_type target n).1 =
        (List.range n).map (fun i => base ++ "_" ++ media_type ++ "_" ++ natStr i) ∧
      ∀ p, p ∈ (allocRun base subtype media_type target n).2 ↔
        ∃ j, j < n ∧ p = uniqueCandidate base subtype media_type target j := by
  intro n
  induction n with
  | zero => refine ⟨rfl, ?_⟩; intro p; simp [allocRun]
  | succ m ih =>
    obtain ⟨hnames, hdisk⟩ := ih
    have hfree : uniqueCandidate base subtype media_type target m ∉
        (allocRun base subtype media_type target m).2 := by
      intro hmem
      obtain ⟨j, hj, heq⟩ := (hdisk _).mp hmem
      have := uniqueCandidate_inj base subtype media_type target heq
      omega
    have htaken : ∀ k, k < m → uniqueCandidate base subtype media_type target k ∈
        (allocRun base subtype media_type target m).2 :=
      fun k hk => (hdisk _).mpr ⟨k, hk, rfl⟩
    have hc := findFree_eq_of_least base subtype media_type target
      (allocRun base subtype media_type target m).2 m hfree htaken
    have hname : unique_name base subtype media_type target
        (allocRun base subtype media_type target m).2 =
        base ++ "_" ++ media_type ++ "_" ++ natStr m := by
      rw [unique_name, hc]
    constructor
    · show (allocRun base subtype media_type target m).1 ++
        [unique_name base subtype media_type target (allocRun base subtype media_type target m).2] = _
      rw [hnames, hname, List.range_succ, List.map_append, List.map_singleton]
    · intro p
      show p ∈ pathJoin target
          ((unique_name base subtype media_type target (allocRun base subtype media_type target m).2)
            ++ "." ++ subtype) :: (allocRun base subtype media_type target m).2 ↔ _
      rw [hname, List.mem_cons, hdisk p, name_to_candidate]
      constructor
      · rintro (rfl | ⟨j, hj, rfl⟩)
        · exact ⟨m, by omega, rfl⟩
        · exact ⟨j, by omega, rfl⟩
      · rintro ⟨j, hj, rfl⟩
        by_cases hjm : j = m
        · subst hjm; exact Or.inl rfl
        · exact Or.inr ⟨j, by omega, rfl⟩

/-! ### Claim theorems -/

/-- C6: the filename allocator returns the name base_mediaKind_c without
extension, where c is the smallest counter such that the candidate path
base_mediaKind_c.subtype does not exist in the target directory; being a
pure function of its arguments and the directory contents it is
deterministic. -/
theorem unique_name_least_free (base subtype media_type target : String) (disk : List String) :
    ∃ c, unique_name base subtype media_type target disk =
        base ++ "_" ++ media_type ++ "_" ++ natStr c ∧
      uniqueCandidate base subtype media_type target c ∉ disk ∧
      ∀ k, k < c → uniqueCandidate base subtype media_type target k ∈ disk := by
  obtain ⟨hf, hall⟩ := unique_name_counter_spec base subtype media_type target disk
  exact ⟨_, rfl, hf, hall⟩

/-- C6 witness: the characterization applied to a directory already
holding the counter-zero candidate. -/
theorem unique_name_least_free_witness :
    ∃ c, unique_name "b" "mp4" "video" "d" [uniqueCandidate "b" "mp4" "video" "d" 0] =
        "b" ++ "_" ++ "video" ++ "_" ++ natStr c ∧
      uniqueCandidate "b" "mp4" "video" "d" c ∉ [uniqueCandidate "b" "mp4" "video" "d" 0] ∧
      ∀ k, k < c → uniqueCandidate "b" "mp4" "video" "d" k ∈
        [uniqueCandidate "b" "mp4" "video" "d" 0] :=
  unique_name_least_free "b" "mp4" "video" "d" [uniqueCandidate "b" "mp4" "video" "d" 0]

/-- C7: n allocate-then-create rounds against an initially empty
directory, with the same base, subtype and media kind, return the counters
0, 1, ..., n-1 in that order, and the n returned names are pairwise
distinct. -/
theorem allocate_sequence_counters (base subtype media_type target : String) (n : Nat) :
    (allocRun base subtype media_type target n).1 =
      (List.range n).map (fun i => base ++ "_" ++ media_type ++ "_" ++ natStr i) ∧
    (allocRun base subtype media_type target n).1.Nodup := by
  obtain ⟨hnames, _⟩ := allocRun_spec base subtype media_type target n
  refine ⟨hnames, ?_⟩
  rw [hnames]
  refine List.Nodup.map ?_ (List.nodup_range n)
  intro i j h
  exact allocName_inj base subtype media_type h

/-- C7 witness: three allocations in sequence. -/
theorem allocate_sequence_counters_witness :
    (allocRun "b" "mp4" "video" "d" 3).1 =
      (List.range 3).map (fun i => "b" ++ "_" ++ "video" ++ "_" ++ natStr i) ∧
    (allocRun "b" "mp4" "video" "d" 3).1.Nodup :=
  allocate_sequence_counters "b" "mp4" "video" "d" 3

/-- C1: the claim says every selection policy reports a missing stream by a
printed one-line message with control returning normally, and that the
BestAdaptive path with no non-progressive streams in the catalog does so
too.  The code dereferences .resolution of the query result before the
not-video_stream guard (cli.py line 134), so with a catalog of progressive
streams only the best path raises AttributeError instead: evaluating the
translated ffmpeg_process at that input yields the error, not a normal
return. -/
theorem ffmpeg_best_no_adaptive_raises :
    ffmpeg_process cat1822 "t" ResArg.best "d" ⟨[], [], 0⟩ =
      Except.error PyErr.attributeError ∧
    videoStreamSel cat1822 ResArg.best = Except.error PyErr.attributeError ∧
    cat1822.all (fun s => s.progressive) = true := by
  exact ⟨rfl, rfl, rfl⟩

/-- C2 counterexample: a catalog whose single non-progressive stream is a
webm video track.  The catalog contains a non-progressive stream, yet
BestAdaptive selection does not return any stream: it raises
AttributeError, because the mp4-restricted query is empty and its
.resolution is dereferenced (cli.py line 134).  This refutes the claim as
stated for every catalog with at least one non-progressive stream. -/
theorem videoSel_no_mp4_raises :
    videoStreamSel catWebmOnly ResArg.best = Except.error PyErr.attributeError ∧
    catWebmOnly.any (fun s => !s.progressive && (s.resolution).isSome) = true ∧
    catWebmOnly.all (fun s => !(s.subtype == "mp4")) = true := by
  exact ⟨rfl, rfl, rfl⟩

/-- C3 counterexample: in catMix the progressive 720p stream precedes the
adaptive 720p stream; download_by_resolution selects the progressive one,
refuting the claim that ExplicitResolution selection returns the first
stream of non-progressive kind with the given resolution. -/
theorem download_by_resolution_picks_progressive :
    dbrSel catMix 720 = some sProg720 ∧
    sProg720.progressive = true ∧
    sAdapt720.progressive = false ∧ sAdapt720.resolution = some 720 ∧
    sAdapt720 ∈ catMix := by
  decide

/-- C3 amended: the ffmpeg path of ExplicitResolution returns the first
stream, in catalog order, that is non-progressive with the
given resolution, and none when no such stream exists; the plain
download_by_resolution path does not constrain progressiveness: it returns
the first stream of any kind with the given resolution, and none when no
stream has it. -/
theorem explicitResolution_selection (cat : List Stream) (r : Nat) :
    ((videoStreamSel cat (ResArg.given r) = .ok none) ↔
      ∀ t ∈ cat, ¬(t.progressive = false ∧ t.resolution = some r)) ∧
    (∀ s, videoStreamSel cat (ResArg.given r) = .ok (some s) →
      s.progressive = false ∧ s.resolution = some r ∧
        ∃ l1 l2, cat = l1 ++ s :: l2 ∧
          ∀ t ∈ l1, ¬(t.progressive = false ∧ t.resolution = some r)) ∧
    ((dbrSel cat r = none) ↔ ∀ t ∈ cat, ¬ t.resolution = some r) ∧
    (∀ s, dbrSel cat r = some s →
      s.resolution = some r ∧
        ∃ l1 l2, cat = l1 ++ s :: l2 ∧ ∀ t ∈ l1, ¬ t.resolution = some r) := by
  have hp : ∀ t : Stream, ((!t.progressive && t.resolution == some r) = true) ↔
      (t.progressive = false ∧ t.resolution = some r) := by
    intro t
    simp [Bool.and_eq_true, Bool.not_eq_true']
  have hq : ∀ t : Stream, ((t.resolution == some r) = true) ↔ (t.resolution = some r) := by
    intro t
    simp
  refine ⟨?_, ?_, ?_, ?_⟩
  · constructor
    · intro h t ht hcon
      simp only [videoStreamSel, Except.ok.injEq] at h
      rw [List.head?_eq_none_iff, List.filter_eq_nil_iff] at h
      exact (h t ht) ((hp t).mpr hcon)
    · intro h
      simp only [videoStreamSel, Except.ok.injEq]
      rw [List.head?_eq_none_iff, List.filter_eq_nil_iff]
      intro t ht hcon
      exact (h t ht) ((hp t).mp hcon)
  · intro s h
    simp only [videoStreamSel, Except.ok.injEq] at h
    obtain ⟨ps, l1, l2, rfl, hl1⟩ := head?_filter_some _ _ s h
    obtain ⟨h1, h2⟩ := (hp s).mp ps
    exact ⟨h1, h2, l1, l2, rfl, fun t ht hcon => (hl1 t ht) ((hp t).mpr hcon)⟩
  · constructor
    · intro h t ht hcon
      rw [dbrSel, List.head?_eq_none_iff, List.filter_eq_nil_iff] at h
      exact (h t ht) ((hq t).mpr hcon)
    · intro h
      rw [dbrSel, List.head?_eq_none_iff, List.filter_eq_nil_iff]
      intro t ht hcon
      exact (h t ht) ((hq t).mp hcon)
  · intro s h
    rw [dbrSel] at h
    obtain ⟨ps, l1, l2, rfl, hl1⟩ := head?_filter_some _ _ s h
    exact ⟨(hq s).mp ps, l1, l2, rfl, fun t ht hcon => (hl1 t ht) ((hq t).mpr hcon)⟩

/-- C3 amended witness: the adaptive 720p stream of catMix is what the
ffmpeg explicit-resolution branch returns, and it is non-progressive with
resolution 720. -/
theorem explicitResolution_selection_witness :
    sAdapt720.progressive = false ∧ sAdapt720.resolution = some 720 := by
  have h := (explicitResolution_selection catMix 720).2.1 sAdapt720 (by rfl)
  exact ⟨h.1, h.2.1⟩

/-- C5: BestProgressive returns none (a printed NotFound) when the catalog
has no progressive streams; it returns some stream whenever a progressive
stream with a resolution exists; any returned stream is progressive, of
numerically maximal resolution among progressive streams of the catalog,
and no later progressive stream attains that resolution (ties broken by
catalog order, last wins); on the spec scenario catalog it returns the
itag-22 stream. -/
theorem bestProgressive_selection :
    (∀ cat : List Stream, (∀ s ∈ cat, s.progressive = false) → bestProgressiveSel cat = none) ∧
    (∀ cat : List Stream, (∃ s ∈ cat, s.progressive = true ∧ (s.resolution).isSome) →
      ∃ s, bestProgressiveSel cat = some s) ∧
    (∀ (cat : List Stream) (s : Stream), bestProgressiveSel cat = some s →
      s.progressive = true ∧ ∃ r, s.resolution = some r ∧
        (∀ t ∈ cat, t.progressive = true → ∀ w, t.resolution = some w → w ≤ r) ∧
        ∃ c1 c2, cat = c1 ++ s :: c2 ∧
          ∀ t ∈ c2, t.progressive = true → ∀ w, t.resolution = some w → w < r) ∧
    bestProgressiveSel cat1822 = some s22 ∧ s22.itag = 22 := by
  refine ⟨?_, ?_, ?_, rfl, rfl⟩
  · intro cat h
    have hnil : cat.filter (fun s => s.progressive) = [] :=
      List.filter_eq_nil_iff.mpr (fun a ha => by simp [h a ha])
    rw [bestProgressiveSel, hnil]
    rfl
  · rintro cat ⟨s, hs, hprog, hres⟩
    exact orderByLast_isSome_of _ _ s (List.mem_filter.mpr ⟨hs, hprog⟩) hres
  · intro cat s h
    obtain ⟨v, l1, l2, hkey, hsplit, hbound, hstrict⟩ := orderByLast_some_spec _ _ s h
    have hsmem : s ∈ cat.filter (fun s => s.progressive) := by
      rw [hsplit]; exact List.mem_append_right l1 (List.mem_cons_self s l2)
    have hsprog : s.progressive = true := (List.mem_filter.mp hsmem).2
    obtain ⟨c1, c2, hcat, hc2⟩ := filter_split _ cat l1 l2 s hsplit
    refine ⟨hsprog, v, hkey, ?_, c1, c2, hcat, ?_⟩
    · intro t ht htprog w hw
      exact hbound t (List.mem_filter.mpr ⟨ht, htprog⟩) w hw
    · intro t ht htprog w hw
      have : t ∈ l2 := by rw [← hc2]; exact List.mem_filter.mpr ⟨ht, htprog⟩
      exact hstrict t this w hw

/-- C5 witness: instantiating the characterization at the scenario
catalog. -/
theorem bestProgressive_selection_witness :
    s22.progressive = true ∧ ∃ r, s22.resolution = some r ∧
      (∀ t ∈ cat1822, t.progressive = true → ∀ w, t.resolution = some w → w ≤ r) ∧
      ∃ c1 c2, cat1822 = c1 ++ s22 :: c2 ∧
        ∀ t ∈ c2, t.progressive = true → ∀ w, t.resolution = some w → w < r :=
  bestProgressive_selection.2.2.1 cat1822 s22 (by rfl)

/-- C9: with the playlist argument set and the audio flag unset, the
playlist branch of main consists of exactly the two printed lines; running
the branch leaves the filesystem unchanged whatever the download routines
do; and no invocation of main ever dispatches the playlist-video download
routine. -/
theorem playlist_video_mode_no_download (args : Args) (p : String)
    (hp : args.playlist = some p) (ha : args.audio = false) :
    playlistBranch args =
      [Act.printed ("Downloading playlist: " ++ p),
       Act.printed "Playlist processed successfully!\n"] ∧
    (∀ dl disk, runDisk dl (playlistBranch args) disk = disk) ∧
    (∀ (b : Args) (u : String), Act.playlistVideoDownload u ∉ mainActs b) := by
  have hbr : playlistBranch args =
      [Act.printed ("Downloading playlist: " ++ p),
       Act.printed "Playlist processed successfully!\n"] := by
    simp [playlistBranch, hp, ha]
  refine ⟨hbr, ?_, ?_⟩
  · intro dl disk
    rw [hbr]
    rfl
  · intro b u
    rcases b with ⟨url, pl, au⟩
    cases url <;> cases pl <;> cases au <;>
      simp [mainActs, urlBranch, playlistBranch]

/-- C9 witness: a concrete invocation with a playlist URL and no audio
flag. -/
theorem playlist_video_mode_no_download_witness :
    playlistBranch ⟨none, some "u", false⟩ =
      [Act.printed ("Downloading playlist: " ++ "u"),
       Act.printed "Playlist processed successfully!\n"] :=
  (playlist_video_mode_no_download ⟨none, some "u", false⟩ "u" rfl rfl).1

/-- C10: the progress renderer raises ZeroDivisionError for a zero total
file size, whatever the received byte count; for every positive total both
the fill and the percentage computation are well defined and a rendered
line is produced. -/
theorem progress_bar_zero_total :
    (∀ (r : Nat) (ch : Char) (scale : ℚ) (cols : Nat),
      display_progress_bar r 0 ch scale cols = Except.error PyErr.zeroDivisionError) ∧
    (∀ (r t : Nat) (ch : Char) (scale : ℚ) (cols : Nat), 0 < t →
      ∃ out, display_progress_bar r t ch scale cols = Except.ok out) := by
  constructor
  · intro r ch scale cols
    rfl
  · intro r t ch scale cols ht
    rw [display_progress_bar, if_neg (by omega : ¬ t = 0)]
    exact ⟨_, rfl⟩

/-- C10 witness: a concrete positive total renders successfully. -/
theorem progress_bar_zero_total_witness :
    (0:Nat) < 100 ∧ ∃ out, display_progress_bar 50 100 '█' 1 100 = Except.ok out :=
  ⟨by decide, progress_bar_zero_total.2 50 100 '█' 1 100 (by decide)⟩

/-- C2 amended: for every catalog containing at least one non-progressive
mp4 stream with a resolution, BestAdaptive treats None and best alike and
picks a video stream that is non-progressive and of maximal resolution
among the non-progressive streams; whenever some non-progressive mp4
stream attains that maximal resolution, the picked stream is of subtype
mp4 (in particular, of two equally-resolved top streams, one mp4 and one
not, the mp4 one is picked).  Independently, any audio stream selected is
non-progressive with the highest average bitrate among non-progressive
streams carrying one, with no subtype constraint, and one is selected
whenever a non-progressive stream with a bitrate exists.  (Without a
non-progressive mp4 stream with a resolution the path instead raises, see
the counterexample.) -/
theorem bestAdaptive_selection (cat : List Stream) (m : Stream) (hm : m ∈ cat)
    (hmprog : m.progressive = false) (hmsub : m.subtype = "mp4")
    (hmres : (m.resolution).isSome) :
    videoStreamSel cat ResArg.noArg = videoStreamSel cat ResArg.best ∧
    (∃ v : Stream, videoStreamSel cat ResArg.best = .ok (some v) ∧
      v.progressive = false ∧ ∃ rv, v.resolution = some rv ∧
        (∀ s ∈ cat, s.progressive = false → ∀ w, s.resolution = some w → w ≤ rv) ∧
        ((∃ u ∈ cat, u.progressive = false ∧ u.subtype = "mp4" ∧ u.resolution = some rv) →
          v.subtype = "mp4")) ∧
    (∀ a, audioStreamSel cat = some a →
      a.progressive = false ∧ ∃ ba, a.abr = some ba ∧
        ∀ s ∈ cat, s.progressive = false → ∀ w, s.abr = some w → w ≤ ba) ∧
    ((∃ s ∈ cat, s.progressive = false ∧ (s.abr).isSome) →
      ∃ a, audioStreamSel cat = some a) := by
  have hm2 : m ∈ cat.filter (fun s => !s.progressive && s.subtype == "mp4") :=
    List.mem_filter.mpr ⟨hm, by simp [hmprog, hmsub]⟩
  have hm1 : m ∈ cat.filter (fun s => !s.progressive) :=
    List.mem_filter.mpr ⟨hm, by simp [hmprog]⟩
  obtain ⟨m4, hm4⟩ := orderByLast_isSome_of (fun s => s.resolution) _ m hm2 hmres
  obtain ⟨hq, hhq⟩ := orderByLast_isSome_of (fun s => s.resolution) _ m hm1 hmres
  have hsel : videoStreamSel cat ResArg.best =
      .ok (some (if hq.resolution = m4.resolution then m4 else hq)) := by
    simp only [videoStreamSel, hhq, hm4]
  obtain ⟨vh, L1, L2, hqkey, hqsplit, hqbound, _⟩ :=
    orderByLast_some_spec (fun s => s.resolution) _ hq hhq
  obtain ⟨vm, M1, M2, m4key, m4split, m4bound, _⟩ :=
    orderByLast_some_spec (fun s => s.resolution) _ m4 hm4
  have hqmem : hq ∈ cat.filter (fun s => !s.progressive) := by
    rw [hqsplit]
    exact List.mem_append_right L1 (List.mem_cons_self hq L2)
  have hqprog : hq.progressive = false := by
    have := (List.mem_filter.mp hqmem).2
    simpa using this
  have m4mem : m4 ∈ cat.filter (fun s => !s.progressive && s.subtype == "mp4") := by
    rw [m4split]
    exact List.mem_append_right M1 (List.mem_cons_self m4 M2)
  have m4pred := (List.mem_filter.mp m4mem).2
  have m4prog : m4.progressive = false := by
    simp only [Bool.and_eq_true, Bool.not_eq_true'] at m4pred
    exact m4pred.1
  have m4sub : m4.subtype = "mp4" := by
    simp only [Bool.and_eq_true, beq_iff_eq] at m4pred
    exact m4pred.2
  have m4mem1 : m4 ∈ cat.filter (fun s => !s.progressive) :=
    List.mem_filter.mpr ⟨(List.mem_filter.mp m4mem).1, by simp [m4prog]⟩
  have hvmvh : vm ≤ vh := hqbound m4 m4mem1 vm m4key
  refine ⟨rfl, ?_, ?_, ?_⟩
  · by_cases hres : hq.resolution = m4.resolution
    · refine ⟨m4, by rw [hsel, if_pos hres], m4prog, vm, m4key, ?_, fun _ => m4sub⟩
      intro s hs hsprog w hw
      have hwvh : w ≤ vh := hqbound s (List.mem_filter.mpr ⟨hs, by simp [hsprog]⟩) w hw
      have hvv : vh = vm := by
        rw [hqkey, m4key] at hres
        exact Option.some.inj hres
      omega
    · refine ⟨hq, by rw [hsel, if_neg hres], hqprog, vh, hqkey, ?_, ?_⟩
      · intro s hs hsprog w hw
        exact hqbound s (List.mem_filter.mpr ⟨hs, by simp [hsprog]⟩) w hw
      · rintro ⟨u, hu, huprog, husub, hures⟩
        exfalso
        have hu2 : u ∈ cat.filter (fun s => !s.progressive && s.subtype == "mp4") :=
          List.mem_filter.mpr ⟨hu, by simp [huprog, husub]⟩
        have hvhvm : vh ≤ vm := m4bound u hu2 vh hures
        apply hres
        rw [hqkey, m4key, Nat.le_antisymm hvhvm hvmvh]
  · intro a haud
    obtain ⟨ba, A1, A2, akey, asplit, abound, _⟩ :=
      orderByLast_some_spec (fun s => s.abr) _ a haud
    have hamem : a ∈ cat.filter (fun s => !s.progressive) := by
      rw [asplit]
      exact List.mem_append_right A1 (List.mem_cons_self a A2)
    have haprog : a.progressive = false := by
      have := (List.mem_filter.mp hamem).2
      simpa using this
    refine ⟨haprog, ba, akey, ?_⟩
    intro s hs hsprog w hw
    exact abound s (List.mem_filter.mpr ⟨hs, by simp [hsprog]⟩) w hw
  · rintro ⟨s, hs, hsprog, habr⟩
    exact orderByLast_isSome_of (fun s => s.abr) _ s
      (List.mem_filter.mpr ⟨hs, by simp [hsprog]⟩) habr

/-- C2 amended witness: the adaptive catalog has an mp4 1080p track, a
webm 1080p track and an audio track; the selection picks an mp4 video
stream of maximal resolution. -/
theorem bestAdaptive_selection_witness :
    ∃ v : Stream, videoStreamSel catAdapt ResArg.best = .ok (some v) ∧
      v.progressive = false ∧ ∃ rv, v.resolution = some rv ∧
        (∀ s ∈ catAdapt, s.progressive = false → ∀ w, s.resolution = some w → w ≤ rv) ∧
        ((∃ u ∈ catAdapt, u.progressive = false ∧ u.subtype = "mp4" ∧ u.resolution = some rv) →
          v.subtype = "mp4") :=
  (bestAdaptive_selection catAdapt ⟨137, "mp4", false, some 1080, none, "t", 2097152⟩
    (by decide) (by decide) (by decide) (by decide)).2.1

/-! ### Helper lemmas: Python rounding on integral values -/

theorem pyInt_intCast (n : ℤ) : pyInt ((n : ℚ)) = n := by
  rw [pyInt]
  by_cases h : ((n : ℚ)) < 0
  · rw [if_pos h, ← Int.cast_neg, Int.floor_intCast]
    omega
  · rw [if_neg h, Int.floor_intCast]

theorem pyRound_intCast (n : ℤ) : pyRound ((n : ℚ)) = n := by
  rw [pyRound, Int.floor_intCast]
  rw [if_neg (by norm_num), round_intCast]

/-- C8: for every call with a positive total, the rendered line is the
fixed prefix, then int(round(barWidth * received / total)) fill
characters followed by barWidth minus that many spaces where barWidth is
int(columns * scale) truncated, then the percentage rounded to one
decimal place, then a percent sign and a carriage return with no newline;
in particular for received 50, total 100, scale 1, columns 100 the fill
length is 50, and for received 100, total 100 the percent string is
exactly 100.0 followed by the percent sign. -/
theorem progress_bar_render :
    (∀ (r t cols : Nat) (ch : Char) (scale : ℚ), 0 < t →
      display_progress_bar r t ch scale cols = .ok
        (" ↳ |" ++ String.mk
            (List.replicate (pyRound (((pyInt ((cols : ℚ) * scale)) : ℚ) * r / t)).toNat ch ++
             List.replicate ((pyInt ((cols : ℚ) * scale)) -
               pyRound (((pyInt ((cols : ℚ) * scale)) : ℚ) * r / t)).toNat ' ') ++ "| " ++
          fmtOneDecimal (pyRoundTo1 (100 * (r : ℚ) / t)) ++ "%\r")) ∧
    display_progress_bar 50 100 '█' 1 100 = .ok
      (" ↳ |" ++ String.mk (List.replicate 50 '█' ++ List.replicate 50 ' ') ++ "| " ++
        "50.0" ++ "%\r") ∧
    display_progress_bar 100 100 '█' (11/20) 100 = .ok
      (" ↳ |" ++ String.mk (List.replicate 55 '█' ++ List.replicate 0 ' ') ++ "| " ++
        "100.0" ++ "%\r") := by
  have hgen : ∀ (r t cols : Nat) (ch : Char) (scale : ℚ), 0 < t →
      display_progress_bar r t ch scale cols = .ok
        (" ↳ |" ++ String.mk
            (List.replicate (pyRound (((pyInt ((cols : ℚ) * scale)) : ℚ) * r / t)).toNat ch ++
             List.replicate ((pyInt ((cols : ℚ) * scale)) -
               pyRound (((pyInt ((cols : ℚ) * scale)) : ℚ) * r / t)).toNat ' ') ++ "| " ++
          fmtOneDecimal (pyRoundTo1 (100 * (r : ℚ) / t)) ++ "%\r") := by
    intro r t cols ch scale ht
    rw [display_progress_bar, if_neg (by omega : ¬ t = 0)]
  refine ⟨hgen, ?_, ?_⟩
  · rw [hgen 50 100 100 '█' 1 (by norm_num)]
    have h1 : pyInt (((100 : Nat) : ℚ) * 1) = 100 := by
      rw [show (((100 : Nat) : ℚ) * 1) = (((100 : ℤ)) : ℚ) by norm_num, pyInt_intCast]
    rw [h1]
    have h2 : pyRound (((100 : ℤ) : ℚ) * ((50 : Nat) : ℚ) / ((100 : Nat) : ℚ)) = 50 := by
      rw [show (((100 : ℤ) : ℚ) * ((50 : Nat) : ℚ) / ((100 : Nat) : ℚ)) = (((50 : ℤ)) : ℚ)
        by norm_num, pyRound_intCast]
    rw [h2]
    have h3 : pyRoundTo1 (100 * ((50 : Nat) : ℚ) / ((100 : Nat) : ℚ)) = 50 := by
      rw [pyRoundTo1, show ((10 : ℚ) * (100 * ((50 : Nat) : ℚ) / ((100 : Nat) : ℚ))) =
        (((500 : ℤ)) : ℚ) by norm_num, pyRound_intCast]
      norm_num
    rw [h3]
    have h4 : fmtOneDecimal (50 : ℚ) = "50.0" := by
      rw [fmtOneDecimal, show ((10 : ℚ) * 50) = (((500 : ℤ)) : ℚ) by norm_num, Int.floor_intCast]
      rfl
    rw [h4]
    rfl
  · rw [hgen 100 100 100 '█' (11/20) (by norm_num)]
    have h1 : pyInt (((100 : Nat) : ℚ) * (11/20)) = 55 := by
      rw [show (((100 : Nat) : ℚ) * (11/20)) = (((55 : ℤ)) : ℚ) by norm_num, pyInt_intCast]
    rw [h1]
    have h2 : pyRound (((55 : ℤ) : ℚ) * ((100 : Nat) : ℚ) / ((100 : Nat) : ℚ)) = 55 := by
      rw [show (((55 : ℤ) : ℚ) * ((100 : Nat) : ℚ) / ((100 : Nat) : ℚ)) = (((55 : ℤ)) : ℚ)
        by norm_num, pyRound_intCast]
    rw [h2]
    have h3 : pyRoundTo1 (100 * ((100 : Nat) : ℚ) / ((100 : Nat) : ℚ)) = 100 := by
      rw [pyRoundTo1, show ((10 : ℚ) * (100 * ((100 : Nat) : ℚ) / ((100 : Nat) : ℚ))) =
        (((1000 : ℤ)) : ℚ) by norm_num, pyRound_intCast]
      norm_num
    rw [h3]
    have h4 : fmtOneDecimal (100 : ℚ) = "100.0" := by
      rw [fmtOneDecimal, show ((10 : ℚ) * 100) = (((1000 : ℤ)) : ℚ) by norm_num, Int.floor_intCast]
      rfl
    rw [h4]
    rfl

/-- C8 witness: the general rendering shape applied at a concrete call. -/
theorem progress_bar_render_witness :
    ∃ out, display_progress_bar 60 100 '█' 1 100 = Except.ok out :=
  ⟨_, progress_bar_render.1 60 100 100 '█' 1 (by norm_num)⟩

/-! ### Helper lemmas: path shapes of the dual-stream orchestration -/

theorem strTailNe (target title : String) {x y : String} (h : x ≠ y) :
    target ++ "/" ++ (title ++ x) ≠ target ++ "/" ++ (title ++ y) :=
  fun hc => h (strCancelLeft (strCancelLeft hc))

theorem unique_name_of_findFree (title media target subtype : String) (disk : List String)
    (c : Nat) (tail : String)
    (hf : findFree (uniqueCandidate title subtype media target) disk 0 (disk.length + 1) = c)
    (htail : "_" ++ (media ++ ("_" ++ natStr c)) = tail) :
    unique_name title subtype media target disk = title ++ tail := by
  rw [unique_name, hf]
  simp only [String.append_assoc]
  exact congrArg (fun x => title ++ x) htail

theorem uniqueCandidate_canon (title media target subtype : String) (c : Nat) (tail : String)
    (htail : "_" ++ (media ++ ("_" ++ (natStr c ++ ("." ++ subtype)))) = tail) :
    uniqueCandidate title subtype media target c = target ++ "/" ++ (title ++ tail) := by
  rw [uniqueCandidate, pathJoin]
  simp only [String.append_assoc]
  exact congrArg (fun x => target ++ ("/" ++ (title ++ x))) htail

theorem findFree_zero_of_not_mem (cand : Nat → String) (disk : List String)
    (h : cand 0 ∉ disk) (fuel : Nat) : findFree cand disk 0 (fuel + 1) = 0 := by
  simp [findFree, h]

/-- C4: with get_file_path and the transfer modelled from the spec (an
explicit file name resolves verbatim against the target directory and a
transfer creates the resolved path), running the orchestrator twice with
identical (catalog, title, policy, target) against an initially empty
directory performs the transfers only on the first run.  Dual-stream path:
whenever selection succeeds, the first run transfers the two selected
streams and the second run finds both resolved paths on disk, reports that
both are already downloaded and performs zero transfers.  Single-stream
path (_download): the first run transfers, the second reports already
downloaded at the resolved path and performs zero transfers. -/
theorem orchestrator_idempotent :
    (∀ (cat : List Stream) (title : String) (arg : ResArg) (target : String) (v a : Stream),
      videoStreamSel cat arg = .ok (some v) → audioStreamSel cat = some a →
      ∃ st1 : DState, ffmpeg_process cat title arg target ⟨[], [], 0⟩ = .ok st1 ∧
        st1.transfers = 2 ∧
        ffmpeg_process cat title arg target ⟨st1.disk, [], 0⟩ =
          .ok ⟨st1.disk, ["Already downloaded both video and audio."], 0⟩) ∧
    (∀ (s : Stream) (target : String) (filename : Option String),
      (downloadStep s target filename ⟨[], [], 0⟩).transfers = 1 ∧
      downloadStep s target filename ⟨(downloadStep s target filename ⟨[], [], 0⟩).disk, [], 0⟩ =
        ⟨(downloadStep s target filename ⟨[], [], 0⟩).disk,
         [sizeLine s filename,
          "Already downloaded at:\n" ++ get_file_path s filename target], 0⟩) := by
  constructor
  · intro cat title arg target v a hv ha
    have hnv : unique_name title "mp4" "video" target [] = title ++ "_video_0" :=
      unique_name_of_findFree title "video" target "mp4" [] 0 "_video_0"
        (by simp [findFree]) (by decide)
    have hna : unique_name title "mp4" "audio" target [] = title ++ "_audio_0" :=
      unique_name_of_findFree title "audio" target "mp4" [] 0 "_audio_0"
        (by simp [findFree]) (by decide)
    have hne_av : target ++ "/" ++ (title ++ "_audio_0") ≠ target ++ "/" ++ (title ++ "_video_0") :=
      strTailNe target title (by decide)
    have hmux : target ++ "/" ++ title ++ ".mp4" = target ++ "/" ++ (title ++ ".mp4") :=
      String.append_assoc (target ++ "/") title ".mp4"
    have hrun1 : ffmpeg_process cat title arg target ⟨[], [], 0⟩ =
        .ok ⟨[target ++ "/" ++ title ++ ".mp4",
              target ++ "/" ++ (title ++ "_audio_0"),
              target ++ "/" ++ (title ++ "_video_0")],
             [sizeLine v (some (title ++ "_video_0")), sizeLine a (some (title ++ "_audio_0"))],
             2⟩ := by
      simp [ffmpeg_process, hv, ha, hnv, hna, get_file_path, pathJoin, downloadStep, hne_av]
    have hcv0 : uniqueCandidate title "mp4" "video" target 0 =
        target ++ "/" ++ (title ++ "_video_0.mp4") :=
      uniqueCandidate_canon title "video" target "mp4" 0 "_video_0.mp4" (by decide)
    have hca0 : uniqueCandidate title "mp4" "audio" target 0 =
        target ++ "/" ++ (title ++ "_audio_0.mp4") :=
      uniqueCandidate_canon title "audio" target "mp4" 0 "_audio_0.mp4" (by decide)
    set disk1 : List String :=
      [target ++ "/" ++ title ++ ".mp4",
       target ++ "/" ++ (title ++ "_audio_0"),
       target ++ "/" ++ (title ++ "_video_0")] with hdisk1
    have hnotv : uniqueCandidate title "mp4" "video" target 0 ∉ disk1 := by
      rw [hcv0, hdisk1]
      intro hmem
      simp only [List.mem_cons, List.not_mem_nil, or_false] at hmem
      rcases hmem with h | h | h
      · exact strTailNe target title (by decide) (h.trans hmux)
      · exact strTailNe target title (by decide) h
      · exact strTailNe target title (by decide) h
    have hnota : uniqueCandidate title "mp4" "audio" target 0 ∉ disk1 := by
      rw [hca0, hdisk1]
      intro hmem
      simp only [List.mem_cons, List.not_mem_nil, or_false] at hmem
      rcases hmem with h | h | h
      · exact strTailNe target title (by decide) (h.trans hmux)
      · exact strTailNe target title (by decide) h
      · exact strTailNe target title (by decide) h
    have hnv2 : unique_name title "mp4" "video" target disk1 = title ++ "_video_0" :=
      unique_name_of_findFree title "video" target "mp4" disk1 0 "_video_0"
        (findFree_zero_of_not_mem _ disk1 hnotv disk1.length) (by decide)
    have hna2 : unique_name title "mp4" "audio" target disk1 = title ++ "_audio_0" :=
      unique_name_of_findFree title "audio" target "mp4" disk1 0 "_audio_0"
        (findFree_zero_of_not_mem _ disk1 hnota disk1.length) (by decide)
    have hrun2 : ffmpeg_process cat title arg target ⟨disk1, [], 0⟩ =
        .ok ⟨disk1, ["Already downloaded both video and audio."], 0⟩ := by
      simp [ffmpeg_process, hv, ha, hnv2, hna2, get_file_path, pathJoin, hdisk1]
    exact ⟨_, hrun1, rfl, hrun2⟩
  · intro s target filename
    constructor
    · simp [downloadStep]
    · simp [downloadStep]

/-- C4 witness: the dual-stream idempotence applied to the concrete
adaptive catalog, whose selection succeeds. -/
theorem orchestrator_idempotent_witness :
    ∃ st1 : DState, ffmpeg_process catAdapt "t" ResArg.best "d" ⟨[], [], 0⟩ = .ok st1 ∧
      st1.transfers = 2 ∧
      ffmpeg_process catAdapt "t" ResArg.best "d" ⟨st1.disk, [], 0⟩ =
        .ok ⟨st1.disk, ["Already downloaded both video and audio."], 0⟩ :=
  orchestrator_idempotent.1 catAdapt "t" ResArg.best "d"
    ⟨137, "mp4", false, some 1080, none, "t", 2097152⟩
    ⟨140, "mp4", false, none, some 128, "t", 1048576⟩ (by rfl) (by rfl)

end PytubeCli
